import Mathlib

/-!
Formal model of the core of the archaeologit repository, together with proofs
of the behavioural properties stated in its specification.

The Python sources are embedded shallowly:

* `Util` models `archaeologit/util.py` (the chunked stream splitter
  `split_file` and the encoding helpers `uc` / `utf8`);
* `GitLog` models `archaeologit/git_log.py` (the log-entry parser);
* `Interesting` models `archaeologit/interesting.py`;
* `Excavator` models the orchestration structure of
  `archaeologit/excavator.py` (job submission, per-worker fact-finder
  resolution, and the result-collection loop).

Python byte strings are modelled as `List Nat` (one `Nat` per byte), unicode
strings as `List Nat` (one `Nat` per code point), and fallible Python code as
`Except`- or `Option`-valued functions.
-/

set_option maxHeartbeats 1000000

namespace Archaeologit

namespace Util

/-- The sequence of chunks produced by repeatedly calling `fil.read(read_size)`
on a stream whose remaining contents are `s`: each call returns at most
`readSize` elements, and the loop in `split_file` stops at the first empty
chunk (in particular `read(0)` returns an empty string at once, so a zero
read size produces no chunks at all). -/
def chunksOf (readSize : Nat) (s : List α) : List (List α) :=
  if _h : readSize = 0 ∨ s.isEmpty then []
  else s.take readSize :: chunksOf readSize (s.drop readSize)
termination_by s.length
decreasing_by
  have h1 : readSize ≠ 0 := fun h => _h (Or.inl h)
  have h2 : ¬s.isEmpty = true := fun h => _h (Or.inr h)
  have h3 : 0 < s.length := by
    cases s with
    | nil => exact absurd rfl h2
    | cons a t => simp
  simp only [List.length_drop]
  omega

/-- The match start positions of `compiled_sep.finditer(chunk)` in
`split_file`: since the pattern is the `re.escape`d single separator
character, these are exactly the indices at which `sep` occurs in `chunk`,
in increasing order. -/
def sepPositions [DecidableEq α] (sep : α) : List α → List Nat
  | [] => []
  | a :: l =>
    if a = sep then 0 :: (sepPositions sep l).map (· + 1)
    else (sepPositions sep l).map (· + 1)

/-- The `check_positions` list of `split_file`: the separator positions,
with `last_pos = len(chunk) - 1` appended when it is not already the last
entry (`if not check_positions or check_positions[-1] != last_pos`). -/
def checkPositions [DecidableEq α] (sep : α) (chunk : List α) : List Nat :=
  let ps := sepPositions sep chunk
  if ps = [] ∨ ps.getLast? ≠ some (chunk.length - 1) then ps ++ [chunk.length - 1]
  else ps

/-- The `for check_pos in check_positions` loop of `split_file`.  `buf` is the
concatenation of the strings accumulated in the Python `buf` list (the list is
seeded with `''` and joined on yield, so only its concatenation is
observable).  `to_append = chunk[cur_pos:check_pos + 1]`; when it ends with
the separator the separator is dropped, the joined buffer is yielded and the
buffer is reset, otherwise it is appended to the buffer.  Returns the pair of
the yielded segments and the final buffer contents. -/
def posLoop [DecidableEq α] (sep : α) (chunk : List α) :
    List Nat → Nat → List α → List (List α) × List α
  | [], _, buf => ([], buf)
  | p :: ps, curPos, buf =>
    let toAppend := (chunk.drop curPos).take (p + 1 - curPos)
    if toAppend.getLast? = some sep then
      let rest := posLoop sep chunk ps (p + 1) []
      ((buf ++ toAppend.dropLast) :: rest.1, rest.2)
    else
      posLoop sep chunk ps (p + 1) (buf ++ toAppend)

/-- Processing of one chunk of the stream by the body of the `while True`
loop of `split_file`. -/
def processChunk [DecidableEq α] (sep : α) (buf chunk : List α) :
    List (List α) × List α :=
  posLoop sep chunk (checkPositions sep chunk) 0 buf

/-- The generator loop of `split_file` over the successive chunks: each chunk
is processed, its completed segments are yielded, and after the final chunk
the remaining buffer is yielded (`if buf:` is always true, because the Python
`buf` list is seeded with `''` and reset to `['']`, hence never empty as a
list). -/
def splitFileGo [DecidableEq α] (sep : α) : List (List α) → List α → List (List α)
  | [], buf => [buf]
  | chunk :: rest, buf =>
    let step := processChunk sep buf chunk
    step.1 ++ splitFileGo sep rest step.2

/-- `util.split_file(fil, sep_char, read_size)`: raises `ValueError` when
`sep_char` is not exactly one character, otherwise yields the segments of the
stream split on the separator via the chunked generator loop. -/
def split_file [DecidableEq α] (fil : List α) (sepChar : List α) (readSize : Nat) :
    Except String (List (List α)) :=
  match sepChar with
  | [sep] => .ok (splitFileGo sep (chunksOf readSize fil) [])
  | _ => .error "Can only split file on single char"

/-- Is `b` a UTF-8 continuation byte (`0x80..0xBF`)? -/
def contOk (b : Nat) : Bool := 0x80 ≤ b && b ≤ 0xBF

/-- Admissible first continuation byte after the three-byte lead `b`
(excluding overlong encodings for `0xE0` and surrogate encodings for
`0xED`). -/
def cont3Ok (b c1 : Nat) : Bool :=
  if b = 0xE0 then 0xA0 ≤ c1 && c1 ≤ 0xBF
  else if b = 0xED then 0x80 ≤ c1 && c1 ≤ 0x9F
  else contOk c1

/-- Admissible first continuation byte after the four-byte lead `b`
(excluding overlong encodings for `0xF0` and out-of-range values for
`0xF4`). -/
def cont4Ok (b c1 : Nat) : Bool :=
  if b = 0xF0 then 0x90 ≤ c1 && c1 ≤ 0xBF
  else if b = 0xF4 then 0x80 ≤ c1 && c1 ≤ 0x8F
  else contOk c1

/-- Scalar value of a well-formed two-byte UTF-8 sequence. -/
def cp2 (b c1 : Nat) : Nat := (b - 0xC0) * 0x40 + (c1 - 0x80)

/-- Scalar value of a well-formed three-byte UTF-8 sequence. -/
def cp3 (b c1 c2 : Nat) : Nat :=
  (b - 0xE0) * 0x1000 + (c1 - 0x80) * 0x40 + (c2 - 0x80)

/-- Scalar value of a well-formed four-byte UTF-8 sequence. -/
def cp4 (b c1 c2 c3 : Nat) : Nat :=
  (b - 0xF0) * 0x40000 + (c1 - 0x80) * 0x1000 + (c2 - 0x80) * 0x40 + (c3 - 0x80)

/-- One decoding step of `uc` after a non-ASCII first byte `b` with remaining
input `bs`: returns the decoded scalar value — or the replacement character
`U+FFFD` for a malformed or truncated sequence — together with the input not
consumed by the sequence (decoding resumes at the first byte that does not
belong to the replaced sequence). -/
def ucConsume (b : Nat) (bs : List Nat) : Nat × List Nat :=
  if b < 0xC2 then (0xFFFD, bs)
  else if b ≤ 0xDF then
    if bs = [] then (0xFFFD, [])
    else if contOk (bs.headD 0) then (cp2 b (bs.headD 0), bs.tail)
    else (0xFFFD, bs)
  else if b ≤ 0xEF then
    if bs = [] then (0xFFFD, [])
    else if ¬cont3Ok b (bs.headD 0) then (0xFFFD, bs)
    else if bs.tail = [] then (0xFFFD, [])
    else if contOk (bs.tail.headD 0) then
      (cp3 b (bs.headD 0) (bs.tail.headD 0), bs.tail.tail)
    else (0xFFFD, bs.tail)
  else if b ≤ 0xF4 then
    if bs = [] then (0xFFFD, [])
    else if ¬cont4Ok b (bs.headD 0) then (0xFFFD, bs)
    else if bs.tail = [] then (0xFFFD, [])
    else if ¬contOk (bs.tail.headD 0) then (0xFFFD, bs.tail)
    else if bs.tail.tail = [] then (0xFFFD, [])
    else if contOk (bs.tail.tail.headD 0) then
      (cp4 b (bs.headD 0) (bs.tail.headD 0) (bs.tail.tail.headD 0),
        bs.tail.tail.tail)
    else (0xFFFD, bs.tail.tail)
  else (0xFFFD, bs)

/-- The decoding loop of `uc`, with explicit fuel.  Each step consumes at
least one input byte, so fuel equal to the input length (as supplied by
`uc`) is always sufficient and the zero-fuel case is never reached. -/
def ucFuel : Nat → List Nat → List Nat
  | _, [] => []
  | 0, _ :: _ => []
  | fuel + 1, b :: bs =>
    if b < 0x80 then b :: ucFuel fuel bs
    else (ucConsume b bs).1 :: ucFuel fuel (ucConsume b bs).2

/-- `util.uc`: decode a byte string assumed to be UTF-8 into code points,
with `errors='replace'`: ASCII bytes and well-formed multi-byte sequences
decode to their scalar values, and every malformed or truncated sequence is
replaced by the replacement character `U+FFFD`; the function is total and
never raises. -/
def uc (bs : List Nat) : List Nat := ucFuel bs.length bs

/-- Is `c` a Unicode scalar value (a code point that is not a surrogate and
is at most `U+10FFFF`)?  `uc` only ever emits scalar values, which is what
makes its output safe for downstream processing. -/
def isScalarValue (c : Nat) : Bool :=
  decide (c < 0x110000) && (decide (c < 0xD800) || decide (0xDFFF < c))

/-- UTF-8 encoding of a single code point; non-scalar values (surrogates or
values above `U+10FFFF`, which `uc` never produces) are replaced by `'?'`
(`errors='replace'` on encode). -/
def encodeCp (c : Nat) : List Nat :=
  if c < 0x80 then [c]
  else if c < 0x800 then [0xC0 + c / 0x40, 0x80 + c % 0x40]
  else if c < 0x10000 then
    if 0xD800 ≤ c ∧ c ≤ 0xDFFF then [0x3F]
    else [0xE0 + c / 0x1000, 0x80 + c / 0x40 % 0x40, 0x80 + c % 0x40]
  else if c < 0x110000 then
    [0xF0 + c / 0x40000, 0x80 + c / 0x1000 % 0x40, 0x80 + c / 0x40 % 0x40,
      0x80 + c % 0x40]
  else [0x3F]

/-- Encoding of a code point sequence as UTF-8 bytes. -/
def encodeUtf8 (cs : List Nat) : List Nat := (cs.map encodeCp).flatten

/-- `util.utf8`: re-encode a byte string of unknown encoding as UTF-8, i.e.
decode it with replacement (`uc`) and encode the result. -/
def utf8 (bs : List Nat) : List Nat := encodeUtf8 (uc bs)

end Util

namespace Interesting

/-- `interesting.is_interesting_fname(fname, interesting_res, boring_res)`.
Compiled regular expressions are modelled extensionally, as the boolean
match predicates they induce on file names.  If there are boring
expressions, `interesting_res` acts only as an override on a boring match
(`return not matches_boring or matches_interesting`); otherwise
`interesting_res`, if non-empty, acts as a filter; with no expressions at
all every name is interesting. -/
def is_interesting_fname {α : Type _} (fname : α)
    (interesting_res boring_res : List (α → Bool)) : Bool :=
  let matches_interesting := interesting_res.any (fun i_re => i_re fname)
  let matches_boring := boring_res.any (fun ni_re => ni_re fname)
  if !boring_res.isEmpty then !matches_boring || matches_interesting
  else if !interesting_res.isEmpty then matches_interesting
  else true

end Interesting

namespace GitLog

/-- Byte representation of an ASCII string literal (used only for the ASCII
header markers appearing in `git_log.py`, for which the bytes coincide with
the code points). -/
def strBytes (s : String) : List Nat := s.toList.map Char.toNat

/-- Python `line.rstrip('\r')`: remove every trailing carriage-return
byte. -/
def rstripCR (l : List Nat) : List Nat :=
  (l.reverse.dropWhile (fun b => b == 13)).reverse

/-- Python byte-string whitespace, as used by `str.strip()` and tested by
`diff.strip()` in `_parse_log_entry`. -/
def isPySpace (b : Nat) : Bool :=
  b == 32 || b == 9 || b == 10 || b == 13 || b == 11 || b == 12

/-- Python `s.strip()`: remove leading and trailing whitespace bytes. -/
def pyStrip (l : List Nat) : List Nat :=
  ((l.dropWhile isPySpace).reverse.dropWhile isPySpace).reverse

/-- Python `line.split(' ', 1)`: split at the first space only, giving two
parts when a space is present and the whole string otherwise. -/
def splitFirstSpace (l : List Nat) : List (List Nat) :=
  let pre := l.takeWhile (fun b => !(b == 32))
  if pre.length = l.length then [l] else [pre, l.drop (pre.length + 1)]

/-- The line list `_split_entry_header` works on: the entry split on
newlines, each line with trailing carriage returns stripped. -/
def entryLines (u : List Nat) : List (List Nat) :=
  (u.splitOn 10).map rstripCR

/-- `git_log._split_entry_header`: split a decoded entry into header lines
and diff lines, or `None` when the entry has fewer than two lines, no
leading `commit` line, or no `Author` second line.  The diff starts at the
first line from index 2 on that begins with `diff` (everything before it is
the header); when no such line exists the diff part is empty. -/
def _split_entry_header (entry : List Nat) :
    Option (List (List Nat) × List (List Nat)) :=
  let lines := entryLines entry
  if lines.length < 2 then none
  else if ¬(strBytes "commit").isPrefixOf (lines.headD []) then none
  else if ¬(strBytes "Author").isPrefixOf (lines.getD 1 []) then none
  else
    let ind := 2 +
      ((lines.drop 2).takeWhile
        (fun l => !(strBytes "diff").isPrefixOf l)).length
    some (lines.take ind, lines.drop ind)

/-- Python-level runtime errors that the embedded parser code could in
principle raise; `indexError` models the `[1]` subscript in
`_parse_header`. -/
inductive PyErr where
  | indexError
deriving DecidableEq, Repr

/-- `git_log._parse_header`: return the value of the first header line
starting with `header`, obtained as everything after the first space of the
line (`line.split(' ', 1)[1]`, whose subscript would raise `IndexError` on
a line without a space), or `None` when no line matches. -/
def _parse_header (header : List Nat) (headerLines : List (List Nat)) :
    Except PyErr (Option (List Nat)) :=
  match headerLines.find? (fun line => header.isPrefixOf line) with
  | none => .ok none
  | some line =>
    match (splitFirstSpace line).get? 1 with
    | some v => .ok (some v)
    | none => .error .indexError

/-- The loop of `git_log._parse_log_msg` over the header lines, carrying the
accumulated `log_msg_lines`: an empty line is always collected; a line
starting with a space or tab is collected once collection has started; any
other line ends collection if it has started and is skipped otherwise. -/
def logMsgGo : List (List Nat) → List (List Nat) → List (List Nat)
  | [], acc => acc
  | line :: rest, acc =>
    if line = [] then logMsgGo rest (acc ++ [line])
    else if (line.headD 0 = 32 ∨ line.headD 0 = 9) ∧ acc ≠ [] then
      logMsgGo rest (acc ++ [line])
    else if acc ≠ [] then acc
    else logMsgGo rest acc

/-- `git_log._parse_log_msg`. -/
def _parse_log_msg (headerLines : List (List Nat)) : List (List Nat) :=
  logMsgGo headerLines []

/-- `git_log.parse_name_and_email`, i.e. `re.match` of
`NAME_AND_EMAIL_RE = ^([^<]+) <(.*)>$` on the author string.  Group 1
cannot contain `<`, so a match decomposes the string at its first `<`,
which must be preceded by the literal space and a non-empty name; group 2
runs to a `>` that ends the string (`$` also matches just before a single
trailing newline, and `.` does not match a newline). -/
def parse_name_and_email (author : List Nat) : Option (List Nat × List Nat) :=
  let pre := author.takeWhile (fun b => !(b == 60))
  if pre.length = author.length then none
  else
    let r := author.drop (pre.length + 1)
    if pre.getLast? = some 32 ∧ pre.dropLast ≠ [] then
      if r.getLast? = some 62 ∧ ¬10 ∈ r.dropLast then
        some (pre.dropLast, r.dropLast)
      else if [62, 10].isSuffixOf r ∧ ¬10 ∈ r.dropLast.dropLast then
        some (pre.dropLast, r.dropLast.dropLast)
      else none
    else none

/-- `git_log.LogEntry`: `raw_log` holds the raw entry bytes, all other
fields are code-point strings decoded with `errors='replace'`. -/
structure LogEntry where
  commit : List Nat
  author_name : List Nat
  author_email : List Nat
  log_msg : List Nat
  diff : List Nat
  raw_log : List Nat
deriving DecidableEq, Repr

/-- `git_log._parse_log_entry`: parse a single raw entry into a `LogEntry`,
or `None` when it cannot be parsed (split failure, whitespace-only diff,
missing or empty or unparsable author, missing or empty commit).  The result
is wrapped in `Except PyErr` so that the possible `IndexError` of
`_parse_header` is represented rather than assumed away. -/
def _parse_log_entry (raw : List Nat) : Except PyErr (Option LogEntry) :=
  match _split_entry_header (Util.utf8 raw) with
  | none => .ok none
  | some (headerLines, diffLines) =>
    let diff := List.intercalate [10] diffLines
    if pyStrip diff = [] then .ok none
    else match _parse_header (strBytes "Author: ") headerLines with
      | .error e => .error e
      | .ok none => .ok none
      | .ok (some author) =>
        if author = [] then .ok none
        else match parse_name_and_email author with
          | none => .ok none
          | some (author_name, author_email) =>
            match _parse_header (strBytes "commit ") headerLines with
            | .error e => .error e
            | .ok none => .ok none
            | .ok (some commit) =>
              if commit = [] then .ok none
              else
                .ok (some
                  { commit := Util.uc commit
                    author_name := Util.uc author_name
                    author_email := Util.uc author_email
                    log_msg :=
                      Util.uc (List.intercalate [10] (_parse_log_msg headerLines))
                    diff := Util.uc diff
                    raw_log := raw })

end GitLog

namespace Excavator

/-- A fact-finder descriptor from the `fact_finders` argument of
`excavator.excavate`: either a fully qualified function name (a `str`) or an
external command argument vector (a `list` of `str`s). -/
inductive FinderDesc where
  | inProcess (name : String)
  | externalCmd (argv : List String)
deriving DecidableEq, Repr

/-- Modelled from the spec: `util.funcify` is called by
`excavator._funcify_fact_finder` but is absent from the source tree.  Per
the specification (§9, dynamic function-name resolution), it resolves a
fully qualified function name to an importable function through a registry,
and an unknown identifier fails fast as a configuration error.  Resolved
finders take the relative file name and a log entry and return a fact. -/
def funcify {E F : Type} (registry : List (String × (String → E → F)))
    (name : String) : Except String (String → E → F) :=
  match registry.lookup name with
  | some f => .ok f
  | none => .error name

/-- `excavator._funcify_fact_finder`: a `list` descriptor resolves to the
process-invoking wrapper `_wrap` (modelled by the `externalRunner`
parameter, since running a process is outside the embedding), and a `str`
descriptor is resolved with `util.funcify`. -/
def _funcify_fact_finder {E F : Type} (registry : List (String × (String → E → F)))
    (externalRunner : List String → String → E → F) :
    FinderDesc → Except String (String → E → F)
  | .externalCmd argv => .ok (externalRunner argv)
  | .inProcess name => funcify registry name

/-- The body of `excavator._find_facts`, which runs inside a worker process:
it first resolves every descriptor (`finders = [_funcify_fact_finder(f) for
f in fact_finders]`, raising on the first failure), then walks the file's
log entries in order and, for each entry, appends the result of each
resolved finder.  Log extraction and parsing are elided: the worker is
given the parsed entries of its file directly. -/
def _find_facts {E F : Type} (registry : List (String × (String → E → F)))
    (externalRunner : List String → String → E → F) (fname : String)
    (entries : List E) (fact_finders : List FinderDesc) :
    Except String (List F) := do
  let finders ← fact_finders.mapM (_funcify_fact_finder registry externalRunner)
  return (entries.map (fun e => finders.map (fun finder => finder fname e))).flatten

/-- Observable events of one `excavate` run, used to state ordering
properties: submission of a per-file fact-finding job to the pool, finder
resolution inside a worker (success or failure), delivery of a fact to the
summarizer, and abortion of the run. -/
inductive Ev (F : Type) where
  | submitFindFacts (fname : String)
  | resolveOk (d : FinderDesc)
  | resolveFail (name : String)
  | summarize (fact : F)
  | runFailed (name : String)
deriving DecidableEq, Repr

/-- The finder-resolution events produced inside one `_find_facts` job:
descriptors are resolved in order and the job dies at the first failure. -/
def resolveEvents {E F : Type} (registry : List (String × (String → E → F)))
    (externalRunner : List String → String → E → F) :
    List FinderDesc → List (Ev F)
  | [] => []
  | d :: ds =>
    match _funcify_fact_finder registry externalRunner d with
    | .ok _ => .resolveOk d :: resolveEvents registry externalRunner ds
    | .error n => [.resolveFail n]

/-- The result-collection loop of `excavate` (`for res in
facts_async_results: facts = res.get(...); for fact in facts:
summarizer(fact)`): jobs are collected in submission order; each collected
job contributes its worker events followed, on success, by one summarizer
call per fact; the exception of a failed job is re-raised by `get` and
aborts the run. -/
def collectJobs {F : Type} :
    List (List (Ev F) × Except String (List F)) → List (Ev F) × Except String Unit
  | [] => ([], .ok ())
  | (evs, .ok facts) :: rest =>
    let r := collectJobs rest
    (evs ++ facts.map .summarize ++ r.1, r.2)
  | (evs, .error n) :: _ => (evs ++ [.runFailed n], .error n)

/-- Event-trace model of the fact-finding phase of `excavator.excavate`.
The `pool.apply_async(_find_facts, ...)` loop submits one job per
interesting file, in declaration order, before any result is awaited; each
job's own events (finder resolution inside the worker) can only happen
after its submission and are linearized just before its result is
collected; collection processes jobs in submission order and aborts the run
at the first failed job.  Returns the event trace and the run outcome. -/
def excavate {E F : Type} (registry : List (String × (String → E → F)))
    (externalRunner : List String → String → E → F)
    (files : List (String × List E)) (fact_finders : List FinderDesc) :
    List (Ev F) × Except String Unit :=
  let submits := files.map (fun f => Ev.submitFindFacts f.1)
  let jobs := files.map (fun f =>
    (resolveEvents registry externalRunner fact_finders,
     _find_facts registry externalRunner f.1 f.2 fact_finders))
  let collected := collectJobs jobs
  (submits ++ collected.1, collected.2)

/-- The first descriptor of the list that fails to resolve, if any. -/
def firstUnresolvable {E F : Type} (registry : List (String × (String → E → F)))
    (externalRunner : List String → String → E → F) :
    List FinderDesc → Option String
  | [] => none
  | d :: ds =>
    match _funcify_fact_finder registry externalRunner d with
    | .ok _ => firstUnresolvable registry externalRunner ds
    | .error n => some n

/-- One `res.get()` of the collection loop, run against an explicit worker
completion order: block until job `i` has completed, accumulating completed
job indices from `arrivals` (the job indices in the order the workers
finish them); returns the updated completed set and the remaining
arrivals, or `None` when job `i` never completes. -/
def waitFor (i : Nat) : List Nat → List Nat → Option (List Nat × List Nat)
  | completed, [] => if i ∈ completed then some (completed, []) else none
  | completed, a :: rest =>
    if i ∈ completed then some (completed, a :: rest)
    else waitFor i (a :: completed) rest

/-- The fact-collection loop of `excavate` against an explicit completion
order: iterate over the async results in submission order, wait for each
job in turn, then deliver its facts to the summarizer.  Returns the facts
in the order the summarizer receives them. -/
def getLoopFacts {F : Type} (jobs : List (List F)) :
    List Nat → List Nat → List Nat → Option (List F)
  | [], _, _ => some []
  | i :: is, completed, arrivals =>
    match waitFor i completed arrivals with
    | none => none
    | some (c2, a2) =>
      match getLoopFacts jobs is c2 a2 with
      | none => none
      | some fs => some (jobs.getD i [] ++ fs)

/-- The facts delivered to the summarizer by `excavate`'s collection loop,
given the per-job fact lists (indexed in submission order) and the order in
which the workers complete the jobs. -/
def factDelivery {F : Type} (jobs : List (List F)) (completionOrder : List Nat) :
    Option (List F) :=
  getLoopFacts jobs (List.range jobs.length) [] completionOrder

/-- The delivery order the specification asserts: the facts concatenated in
the completion order of the phase-2 jobs. -/
def completionOrderDelivery {F : Type} (jobs : List (List F))
    (completionOrder : List Nat) : List F :=
  (completionOrder.map (fun i => jobs.getD i [])).flatten

end Excavator

namespace GitLog

/-- The name/email rule exactly as the specification words it: the name is
everything before the last `<` (minus the separating space) and the email
is everything between that last `<` and a trailing `>`; null on
mismatch. -/
def nameEmailLastAngleRule (author : List Nat) : Option (List Nat × List Nat) :=
  let tailLen := (author.reverse.takeWhile (fun b => !(b == 60))).length
  if tailLen = author.length then none
  else
    let j := author.length - tailLen - 1
    let beforeLast := author.take j
    if beforeLast.getLast? = some 32 ∧ author.getLast? = some 62 then
      some (beforeLast.dropLast, (author.drop (j + 1)).dropLast)
    else none

/-- The name/email rule as amended: the (non-empty) name is everything
before the first `<` (minus the separating space, which must be present)
and the email is everything between that first `<` and a trailing `>`;
null on mismatch. -/
def nameEmailFirstAngleRule (author : List Nat) : Option (List Nat × List Nat) :=
  let i := (author.takeWhile (fun b => !(b == 60))).length
  if i = author.length then none
  else
    let name_sp := author.take i
    if name_sp.getLast? = some 32 ∧ name_sp.dropLast ≠ [] ∧
        author.getLast? = some 62 then
      some (name_sp.dropLast, (author.drop (i + 1)).dropLast)
    else none

/-- A well-formed raw log entry used as a concrete witness input. -/
def sampleRaw : List Nat := strBytes "commit abc\nAuthor: Bob <b@e.com>\ndiff x"

/-- The `LogEntry` that `_parse_log_entry` produces on `sampleRaw`. -/
def sampleLogEntry : LogEntry :=
  { commit := strBytes "abc"
    author_name := strBytes "Bob"
    author_email := strBytes "b@e.com"
    log_msg := []
    diff := strBytes "diff x"
    raw_log := sampleRaw }

end GitLog

namespace Util

theorem modifyHead_nil_append (l : List (List α)) :
    l.modifyHead (fun x => [] ++ x) = l := by
  cases l <;> simp

theorem getLastD_irrel {β : Type _} (l : List β) (h : l ≠ []) (d d' : β) :
    l.getLastD d = l.getLastD d' := by
  rw [List.getLastD_eq_getLast?, List.getLastD_eq_getLast?]
  obtain ⟨x, hx⟩ := Option.isSome_iff_exists.mp (List.getLast?_isSome.mpr h)
  simp [hx]

theorem sepPositions_of_not_mem [DecidableEq α] {sep : α} {chunk : List α}
    (h : sep ∉ chunk) : sepPositions sep chunk = [] := by
  induction chunk with
  | nil => rfl
  | cons a l ih =>
    have ha : ¬a = sep := fun e => h (e ▸ List.mem_cons_self a l)
    have h2 : sep ∉ l := fun hm => h (List.mem_cons_of_mem a hm)
    simp [sepPositions, ha, ih h2]

theorem sepPositions_append [DecidableEq α] {sep : α} {pre : List α} (rest : List α)
    (h : sep ∉ pre) :
    sepPositions sep (pre ++ sep :: rest) =
      pre.length :: (sepPositions sep rest).map (· + (pre.length + 1)) := by
  induction pre with
  | nil => simp [sepPositions]
  | cons a pre ih =>
    have ha : ¬a = sep := fun e => h (e ▸ List.mem_cons_self a pre)
    have h2 : sep ∉ pre := fun hm => h (List.mem_cons_of_mem a hm)
    have step : sepPositions sep ((a :: pre) ++ sep :: rest)
        = (sepPositions sep (pre ++ sep :: rest)).map (· + 1) := by
      simp [sepPositions, ha]
    rw [step, ih h2]
    simp only [List.map_cons, List.map_map, List.length_cons]
    refine congrArg₂ List.cons rfl ?_
    refine List.map_congr_left fun x _ => ?_
    simp only [Function.comp_apply]
    omega

theorem exists_first_sep [DecidableEq α] {sep : α} {chunk : List α} (h : sep ∈ chunk) :
    ∃ pre rest, chunk = pre ++ sep :: rest ∧ sep ∉ pre := by
  induction chunk with
  | nil => cases h
  | cons a l ih =>
    by_cases ha : a = sep
    · exact ⟨[], l, by simp [ha], by simp⟩
    · rcases List.mem_cons.mp h with h1 | h2
      · exact absurd h1.symm ha
      · obtain ⟨pre, rest, e, hp⟩ := ih h2
        refine ⟨a :: pre, rest, by simp [e], ?_⟩
        intro hm
        rcases List.mem_cons.mp hm with h3 | h4
        · exact ha h3.symm
        · exact hp h4

theorem posLoop_shift [DecidableEq α] (sep : α) (pre rest : List α) :
    ∀ (qs : List Nat) (cur : Nat) (buf : List α),
      posLoop sep (pre ++ sep :: rest) (qs.map (· + (pre.length + 1)))
          (cur + (pre.length + 1)) buf
        = posLoop sep rest qs cur buf := by
  intro qs
  induction qs with
  | nil => intro cur buf; rfl
  | cons q qs ih =>
    intro cur buf
    have hdrop : (pre ++ sep :: rest).drop (cur + (pre.length + 1)) = rest.drop cur := by
      have he : pre ++ sep :: rest = (pre ++ [sep]) ++ rest := by simp
      rw [he, Nat.add_comm cur (pre.length + 1), ← List.drop_drop,
        show pre.length + 1 = (pre ++ [sep]).length by simp, List.drop_left]
    have harith : q + (pre.length + 1) + 1 - (cur + (pre.length + 1)) = q + 1 - cur := by
      omega
    simp only [List.map_cons, posLoop, hdrop, harith]
    rw [show q + (pre.length + 1) + 1 = (q + 1) + (pre.length + 1) by omega]
    simp only [ih]

theorem checkPositions_append [DecidableEq α] {sep : α} {pre rest : List α}
    (hpre : sep ∉ pre) (hrest : rest ≠ []) :
    checkPositions sep (pre ++ sep :: rest) =
      pre.length :: (checkPositions sep rest).map (· + (pre.length + 1)) := by
  have hlen : (pre ++ sep :: rest).length - 1 = pre.length + rest.length := by
    simp [List.length_append]
  have hrl : 0 < rest.length := List.length_pos.mpr hrest
  cases hS : (sepPositions sep rest).getLast? with
  | none =>
    have hS0 : sepPositions sep rest = [] := List.getLast?_eq_none_iff.mp hS
    have hR : checkPositions sep rest = [rest.length - 1] := by
      rw [checkPositions, hS0]
      simp
    rw [hR, checkPositions, sepPositions_append rest hpre, hS0]
    rw [if_pos]
    · simp only [List.map_nil, List.cons_append, List.nil_append, List.map_cons,
        hlen]
      refine congrArg₂ List.cons rfl (congrArg₂ List.cons ?_ rfl)
      omega
    · refine Or.inr ?_
      simp only [List.map_nil, List.getLast?_cons, List.getLast?_nil,
        Option.getD_none, hlen, ne_eq, Option.some.injEq]
      omega
  | some g =>
    have hSne : sepPositions sep rest ≠ [] := by
      intro e
      rw [e] at hS
      exact Option.noConfusion hS
    have hglshift : ((sepPositions sep rest).map (· + (pre.length + 1))).getLast? =
        some (g + (pre.length + 1)) := by
      rw [List.getLast?_map, hS]; rfl
    have hgl2 : (pre.length :: (sepPositions sep rest).map
        (· + (pre.length + 1))).getLast? = some (g + (pre.length + 1)) := by
      cases hm : (sepPositions sep rest).map (· + (pre.length + 1)) with
      | nil =>
        exact absurd (List.map_eq_nil_iff.mp hm) hSne
      | cons m0 M0 =>
        rw [List.getLast?_cons_cons, ← hm, hglshift]
    by_cases hcond : g = rest.length - 1
    · have hcondR : ¬(sepPositions sep rest = [] ∨
          (sepPositions sep rest).getLast? ≠ some (rest.length - 1)) := by
        rw [not_or]
        refine ⟨hSne, ?_⟩
        rw [hS]
        simp only [ne_eq, not_not, Option.some.injEq]
        omega
      have hR : checkPositions sep rest = sepPositions sep rest := by
        rw [checkPositions, if_neg hcondR]
      rw [hR, checkPositions, sepPositions_append rest hpre, if_neg]
      rw [not_or]
      constructor
      · simp
      · rw [hgl2, hlen]
        simp only [ne_eq, not_not, Option.some.injEq]
        omega
    · have hcondR : sepPositions sep rest = [] ∨
          (sepPositions sep rest).getLast? ≠ some (rest.length - 1) := by
        refine Or.inr ?_
        rw [hS]
        simp only [ne_eq, Option.some.injEq]
        omega
      have hR : checkPositions sep rest = sepPositions sep rest ++ [rest.length - 1] := by
        rw [checkPositions, if_pos hcondR]
      rw [hR, checkPositions, sepPositions_append rest hpre, if_pos]
      · simp only [List.cons_append, List.map_append, List.map_cons, List.map_nil,
          hlen]
        refine congrArg₂ List.cons rfl ?_
        refine congrArg₂ HAppend.hAppend rfl ?_
        refine congrArg₂ List.cons ?_ rfl
        omega
      · refine Or.inr ?_
        rw [hgl2, hlen]
        simp only [ne_eq, Option.some.injEq]
        omega

theorem splitOnP_ne_nil_exists (p : α → Bool) (xs : List α) :
    ∃ q qs, xs.splitOnP p = q :: qs := by
  cases hX : xs.splitOnP p with
  | nil => exact absurd hX (List.splitOnP_ne_nil p xs)
  | cons q qs => exact ⟨q, qs, rfl⟩

theorem splitOnP_append (p : α → Bool) (xs ys : List α) :
    (xs ++ ys).splitOnP p =
      (xs.splitOnP p).dropLast ++
        (ys.splitOnP p).modifyHead (((xs.splitOnP p).getLastD []) ++ ·) := by
  induction xs with
  | nil =>
    obtain ⟨y, ys', hY⟩ := splitOnP_ne_nil_exists p ys
    rw [List.nil_append, List.splitOnP_nil, hY]
    rfl
  | cons a xs ih =>
    obtain ⟨q, qs, hX⟩ := splitOnP_ne_nil_exists p xs
    obtain ⟨y, ys', hY⟩ := splitOnP_ne_nil_exists p ys
    rw [List.cons_append, List.splitOnP_cons, List.splitOnP_cons]
    by_cases hpa : p a
    · rw [if_pos hpa, if_pos hpa, ih, hX]
      rw [List.dropLast_cons_of_ne_nil (List.cons_ne_nil q qs),
        List.getLastD_cons, List.cons_append]
      simp only [List.getLastD_cons]
    · rw [if_neg hpa, if_neg hpa, ih, hX]
      cases qs with
      | nil =>
        rw [hY]
        simp [List.cons_append]
      | cons r rs =>
        rw [hY]
        simp only [List.dropLast_cons_of_ne_nil (List.cons_ne_nil r rs),
          List.getLastD_cons, List.modifyHead_cons, List.cons_append,
          List.modifyHead_cons]

theorem processChunk_eq [DecidableEq α] (sep : α) :
    ∀ (n : Nat) (chunk : List α), chunk.length ≤ n → chunk ≠ [] → ∀ buf : List α,
      processChunk sep buf chunk =
        (((chunk.splitOn sep).modifyHead (buf ++ ·)).dropLast,
          ((chunk.splitOn sep).modifyHead (buf ++ ·)).getLastD []) := by
  intro n
  induction n with
  | zero =>
    intro chunk h hne
    cases chunk with
    | nil => exact absurd rfl hne
    | cons a l => simp at h
  | succ n ih =>
    intro chunk hlen hne buf
    by_cases hmem : sep ∈ chunk
    · obtain ⟨pre, rest, rfl, hpre⟩ := exists_first_sep hmem
      by_cases hrest : rest = []
      · subst hrest
        have hsplit : (pre ++ [sep]).splitOn sep = [pre, []] := by
          show (pre ++ sep :: []).splitOnP (· == sep) = [pre, []]
          rw [List.splitOnP_first _ pre (fun x hx => by
              simp only [beq_iff_eq]
              exact fun e => hpre (e ▸ hx)) sep (by simp) []]
          rfl
        have hck : checkPositions sep (pre ++ [sep]) = [pre.length] := by
          rw [checkPositions, sepPositions_append [] hpre,
            sepPositions]
          simp
        rw [processChunk, hck, posLoop]
        have htake : ((pre ++ [sep]).drop 0).take (pre.length + 1 - 0) = pre ++ [sep] := by
          rw [List.drop_zero, Nat.sub_zero,
            show pre.length + 1 = (pre ++ [sep]).length by simp, List.take_length]
        rw [htake, if_pos (List.getLast?_concat pre), posLoop]
        rw [hsplit]
        simp [List.dropLast_concat]
      · have hsplit : (pre ++ sep :: rest).splitOn sep = pre :: rest.splitOn sep := by
          show (pre ++ sep :: rest).splitOnP (· == sep) = pre :: rest.splitOnP (· == sep)
          exact List.splitOnP_first _ pre (fun x hx => by
              simp only [beq_iff_eq]
              exact fun e => hpre (e ▸ hx)) sep (by simp) rest
        have hlen2 : rest.length ≤ n := by
          have := hlen
          simp only [List.length_append, List.length_cons] at this
          omega
        have hck := checkPositions_append hpre hrest
        rw [processChunk, hck, posLoop]
        have htake : ((pre ++ sep :: rest).drop 0).take (pre.length + 1 - 0)
            = pre ++ [sep] := by
          rw [List.drop_zero, Nat.sub_zero,
            show pre ++ sep :: rest = (pre ++ [sep]) ++ rest by simp,
            show pre.length + 1 = (pre ++ [sep]).length by simp, List.take_left]
        rw [htake, if_pos (List.getLast?_concat pre), List.dropLast_concat]
        have hshift := posLoop_shift sep pre rest (checkPositions sep rest) 0 []
        rw [Nat.zero_add] at hshift
        rw [hshift]
        have hrec : posLoop sep rest (checkPositions sep rest) 0 []
            = (((rest.splitOn sep).modifyHead (fun x => [] ++ x)).dropLast,
               ((rest.splitOn sep).modifyHead (fun x => [] ++ x)).getLastD []) :=
          ih rest hlen2 hrest []
        rw [modifyHead_nil_append] at hrec
        rw [hrec, hsplit]
        obtain ⟨q, qs, hQ⟩ := splitOnP_ne_nil_exists (· == sep) rest
        have hQ' : rest.splitOn sep = q :: qs := hQ
        rw [hQ']
        simp only [List.modifyHead_cons,
          List.dropLast_cons_of_ne_nil (List.cons_ne_nil q qs), List.getLastD_cons]
    · have hsplit : chunk.splitOn sep = [chunk] := by
        show chunk.splitOnP (· == sep) = [chunk]
        exact List.splitOnP_eq_single _ chunk (fun x hx => by
          simp only [beq_iff_eq]
          exact fun e => hmem (e ▸ hx))
      have hck : checkPositions sep chunk = [chunk.length - 1] := by
        rw [checkPositions, sepPositions_of_not_mem hmem]
        simp
      have hpos : 0 < chunk.length := List.length_pos.mpr hne
      rw [processChunk, hck, posLoop]
      have htake : (chunk.drop 0).take (chunk.length - 1 + 1 - 0) = chunk := by
        rw [List.drop_zero, Nat.sub_zero, show chunk.length - 1 + 1 = chunk.length by omega,
          List.take_length]
      have hnotlast : ¬chunk.getLast? = some sep :=
        fun h => hmem (List.mem_of_mem_getLast? h)
      rw [htake, if_neg hnotlast, posLoop, hsplit]
      simp

theorem splitFileGo_eq [DecidableEq α] (sep : α) :
    ∀ (chunks : List (List α)), (∀ c ∈ chunks, c ≠ []) → ∀ buf : List α,
      splitFileGo sep chunks buf
        = (chunks.flatten.splitOn sep).modifyHead (fun x => buf ++ x) := by
  intro chunks
  induction chunks with
  | nil =>
    intro _ buf
    rw [splitFileGo]
    simp [List.splitOn_nil]
  | cons c cs ih =>
    intro hne buf
    have hc : c ≠ [] := hne c (List.mem_cons_self c cs)
    have hcs : ∀ x ∈ cs, x ≠ [] := fun x hx => hne x (List.mem_cons_of_mem c hx)
    rw [splitFileGo, processChunk_eq sep c.length c le_rfl hc buf]
    dsimp only
    rw [ih hcs, List.flatten_cons]
    have happ : (c ++ cs.flatten).splitOn sep =
        (c.splitOn sep).dropLast ++
          ((cs.flatten).splitOn sep).modifyHead
            (fun x => ((c.splitOn sep).getLastD []) ++ x) :=
      splitOnP_append (· == sep) c cs.flatten
    rw [happ]
    obtain ⟨q, qs, hX⟩ := splitOnP_ne_nil_exists (· == sep) c
    have hX' : c.splitOn sep = q :: qs := hX
    obtain ⟨y, ys', hY⟩ := splitOnP_ne_nil_exists (· == sep) cs.flatten
    have hY' : cs.flatten.splitOn sep = y :: ys' := hY
    rw [hX', hY']
    cases qs with
    | nil => simp [List.append_assoc]
    | cons r rs =>
      simp only [List.modifyHead_cons,
        List.dropLast_cons_of_ne_nil (List.cons_ne_nil r rs), List.getLastD_cons,
        List.cons_append]

theorem chunksOf_flatten {readSize : Nat} (h : 0 < readSize) :
    ∀ (n : Nat) (s : List α), s.length ≤ n → (chunksOf readSize s).flatten = s := by
  intro n
  induction n with
  | zero =>
    intro s hs
    have : s = [] := List.length_eq_zero.mp (Nat.le_zero.mp hs)
    subst this
    simp [chunksOf]
  | succ n ih =>
    intro s hs
    cases s with
    | nil => simp [chunksOf]
    | cons a t =>
      rw [chunksOf]
      rw [dif_neg (by simp; omega)]
      rw [List.flatten_cons]
      rw [ih ((a :: t).drop readSize) (by simp only [List.length_drop]; simp at hs ⊢; omega)]
      exact List.take_append_drop readSize (a :: t)

theorem chunksOf_ne_nil {readSize : Nat} (h : 0 < readSize) :
    ∀ (n : Nat) (s : List α), s.length ≤ n → ∀ c ∈ chunksOf readSize s, c ≠ [] := by
  intro n
  induction n with
  | zero =>
    intro s hs
    have : s = [] := List.length_eq_zero.mp (Nat.le_zero.mp hs)
    subst this
    simp [chunksOf]
  | succ n ih =>
    intro s hs c hc
    cases s with
    | nil => simp [chunksOf] at hc
    | cons a t =>
      rw [chunksOf, dif_neg (by simp; omega)] at hc
      rcases List.mem_cons.mp hc with h1 | h2
      · subst h1
        simp only [ne_eq, List.take_eq_nil_iff, not_or]
        exact ⟨by omega, by simp⟩
      · exact ih ((a :: t).drop readSize)
          (by simp only [List.length_drop]; simp at hs ⊢; omega) c h2

theorem cont3Ok_eq_true_iff {b c : Nat} :
    cont3Ok b c = true ↔
      ((b = 0xE0 ∧ 0xA0 ≤ c ∧ c ≤ 0xBF) ∨ (b = 0xED ∧ 0x80 ≤ c ∧ c ≤ 0x9F) ∨
        (¬b = 0xE0 ∧ ¬b = 0xED ∧ 0x80 ≤ c ∧ c ≤ 0xBF)) := by
  by_cases h1 : b = 0xE0
  · subst h1
    simp [cont3Ok, contOk]
    try omega
  · by_cases h2 : b = 0xED
    · subst h2
      simp [cont3Ok, contOk]
      try omega
    · simp [cont3Ok, contOk, h1, h2]
      try omega

theorem cont4Ok_eq_true_iff {b c : Nat} :
    cont4Ok b c = true ↔
      ((b = 0xF0 ∧ 0x90 ≤ c ∧ c ≤ 0xBF) ∨ (b = 0xF4 ∧ 0x80 ≤ c ∧ c ≤ 0x8F) ∨
        (¬b = 0xF0 ∧ ¬b = 0xF4 ∧ 0x80 ≤ c ∧ c ≤ 0xBF)) := by
  by_cases h1 : b = 0xF0
  · subst h1
    simp [cont4Ok, contOk]
    try omega
  · by_cases h2 : b = 0xF4
    · subst h2
      simp [cont4Ok, contOk]
      try omega
    · simp [cont4Ok, contOk, h1, h2]
      try omega

theorem ucConsume_tail_le (b : Nat) (bs : List Nat) :
    (ucConsume b bs).2.length ≤ bs.length := by
  rw [ucConsume]
  split_ifs
  all_goals simp only [List.length_tail, List.length_nil]
  all_goals omega

theorem ucConsume_props (b : Nat) (bs : List Nat) :
    0x80 ≤ (ucConsume b bs).1 ∧ isScalarValue (ucConsume b bs).1 = true := by
  rw [ucConsume]
  split_ifs
  all_goals try simp only [not_not] at *
  all_goals simp only [cp2, cp3, cp4, isScalarValue, Bool.and_eq_true,
    Bool.or_eq_true, decide_eq_true_eq]
  all_goals try simp only [contOk, cont3Ok_eq_true_iff, cont4Ok_eq_true_iff,
    Bool.and_eq_true, decide_eq_true_eq] at *
  all_goals omega

theorem ucFuel_nil (f : Nat) : ucFuel f [] = [] := by
  cases f <;> rfl

theorem ucFuel_eq_of_le :
    ∀ (n f g : Nat) (bs : List Nat), bs.length ≤ n → bs.length ≤ f →
      bs.length ≤ g → ucFuel f bs = ucFuel g bs := by
  intro n
  induction n with
  | zero =>
    intro f g bs hn _ _
    have : bs = [] := List.length_eq_zero.mp (Nat.le_zero.mp hn)
    subst this
    rw [ucFuel_nil, ucFuel_nil]
  | succ n ih =>
    intro f g bs hn hf hg
    cases bs with
    | nil => rw [ucFuel_nil, ucFuel_nil]
    | cons b bs =>
      simp only [List.length_cons] at hn hf hg
      obtain ⟨f1, rfl⟩ : ∃ f1, f = f1 + 1 := ⟨f - 1, by omega⟩
      obtain ⟨g1, rfl⟩ : ∃ g1, g = g1 + 1 := ⟨g - 1, by omega⟩
      rw [ucFuel, ucFuel]
      by_cases hb : b < 0x80
      · rw [if_pos hb, if_pos hb, ih f1 g1 bs (by omega) (by omega) (by omega)]
      · rw [if_neg hb, if_neg hb]
        have hrest := ucConsume_tail_le b bs
        rw [ih f1 g1 (ucConsume b bs).2 (by omega) (by omega) (by omega)]

theorem ucFuel_eq_uc (f : Nat) (bs : List Nat) (h : bs.length ≤ f) :
    ucFuel f bs = uc bs :=
  ucFuel_eq_of_le bs.length f bs.length bs le_rfl h le_rfl

theorem uc_cons_low {b : Nat} (bs : List Nat) (h : b < 0x80) :
    uc (b :: bs) = b :: uc bs := by
  show ucFuel (b :: bs).length (b :: bs) = _
  rw [List.length_cons, ucFuel, if_pos h]
  rfl

theorem uc_cons_high {b : Nat} (bs : List Nat) (h : ¬b < 0x80) :
    uc (b :: bs) = (ucConsume b bs).1 :: uc (ucConsume b bs).2 := by
  show ucFuel (b :: bs).length (b :: bs) = _
  rw [List.length_cons, ucFuel, if_neg h,
    ucFuel_eq_uc bs.length (ucConsume b bs).2 (ucConsume_tail_le b bs)]

theorem uc_ne_nil {bs : List Nat} (h : bs ≠ []) : uc bs ≠ [] := by
  cases bs with
  | nil => exact absurd rfl h
  | cons b bs =>
    by_cases hb : b < 0x80
    · rw [uc_cons_low bs hb]
      simp
    · rw [uc_cons_high bs hb]
      simp

theorem uc_ascii : ∀ (bs : List Nat), (∀ b ∈ bs, b < 0x80) → uc bs = bs := by
  intro bs h
  induction bs with
  | nil => rfl
  | cons b bs ih =>
    rw [uc_cons_low bs (h b (List.mem_cons_self b bs)),
      ih (fun x hx => h x (List.mem_cons_of_mem b hx))]

theorem uc_exists_high (bs : List Nat) (h : ∃ b ∈ bs, 0x80 ≤ b) :
    ∃ c ∈ uc bs, 0x80 ≤ c := by
  induction bs with
  | nil =>
    obtain ⟨b, hb, _⟩ := h
    cases hb
  | cons b bs ih =>
    by_cases hb : b < 0x80
    · rw [uc_cons_low bs hb]
      obtain ⟨w, hw, hge⟩ := h
      rcases List.mem_cons.mp hw with rfl | hw2
      · exact absurd hge (by omega)
      · obtain ⟨c, hc, hcge⟩ := ih ⟨w, hw2, hge⟩
        exact ⟨c, List.mem_cons_of_mem b hc, hcge⟩
    · rw [uc_cons_high bs hb]
      exact ⟨(ucConsume b bs).1, List.mem_cons_self _ _, (ucConsume_props b bs).1⟩

theorem uc_scalar_aux :
    ∀ (n : Nat) (bs : List Nat), bs.length ≤ n →
      (uc bs).all isScalarValue = true := by
  intro n
  induction n with
  | zero =>
    intro bs hn
    have : bs = [] := List.length_eq_zero.mp (Nat.le_zero.mp hn)
    subst this
    rfl
  | succ n ih =>
    intro bs hn
    cases bs with
    | nil => rfl
    | cons b bs =>
      simp only [List.length_cons] at hn
      by_cases hb : b < 0x80
      · rw [uc_cons_low bs hb, List.all_cons, Bool.and_eq_true]
        refine ⟨by simp only [isScalarValue, Bool.and_eq_true, Bool.or_eq_true,
          decide_eq_true_eq]; omega, ih bs (by omega)⟩
      · rw [uc_cons_high bs hb, List.all_cons, Bool.and_eq_true]
        have hrest := ucConsume_tail_le b bs
        exact ⟨(ucConsume_props b bs).2, ih (ucConsume b bs).2 (by omega)⟩

theorem uc_scalar (bs : List Nat) : (uc bs).all isScalarValue = true :=
  uc_scalar_aux bs.length bs le_rfl

theorem uc_exists_nonspace (bs : List Nat)
    (h : ∃ b ∈ bs, GitLog.isPySpace b = false) :
    ∃ c ∈ uc bs, GitLog.isPySpace c = false := by
  by_cases hhigh : ∃ b ∈ bs, 0x80 ≤ b
  · obtain ⟨c, hc, hcge⟩ := uc_exists_high bs hhigh
    refine ⟨c, hc, ?_⟩
    simp only [GitLog.isPySpace, Bool.or_eq_false_iff, beq_eq_false_iff_ne, ne_eq]
    omega
  · push_neg at hhigh
    rw [uc_ascii bs (fun b hb => hhigh b hb)]
    exact h

end Util

/-- C1: for every byte string `s`, every single-byte delimiter `d` and every
positive read-chunk size, the sequence of segments produced by `split_file`
over a stream containing `s` equals the whole-buffer split of `s` on `d`
(`List.splitOn`, which matches Python `str.split` for a one-character
separator, including empty leading/trailing segments and a single empty
segment for the empty stream). -/
theorem C1_split_file_eq_whole_buffer_split {α : Type _} [DecidableEq α]
    (s : List α) (d : α) (readSize : Nat) (h : 0 < readSize) :
    Util.split_file s [d] readSize = .ok (s.splitOn d) := by
  show Except.ok (Util.splitFileGo d (Util.chunksOf readSize s) []) = .ok (s.splitOn d)
  refine congrArg Except.ok ?_
  rw [Util.splitFileGo_eq d _ (fun c hc => Util.chunksOf_ne_nil h s.length s le_rfl c hc) []]
  rw [Util.chunksOf_flatten h s.length s le_rfl]
  exact Util.modifyHead_nil_append _

/-- Witness for C1 at a concrete input: the stream `0x61 0x00 0x00 0x62` read
two bytes at a time splits on the NUL byte into `["a", "", "b"]`. -/
theorem C1_split_file_eq_whole_buffer_split_witness :
    0 < 2 ∧ Util.split_file [0x61, 0, 0, 0x62] [0] 2 = .ok [[0x61], [], [0x62]] := by
  refine ⟨by decide, ?_⟩
  have h := C1_split_file_eq_whole_buffer_split [0x61, 0, 0, 0x62] 0 2 (by decide)
  rw [h]
  rfl

/-- C9: for every delimiter argument that is not exactly one byte (empty or
multi-byte), `split_file` fails with `ValueError` instead of producing
segments, for every input stream and read size. -/
theorem C9_split_file_rejects_non_single_byte_sep {α : Type _} [DecidableEq α]
    (fil sepChar : List α) (readSize : Nat) (h : sepChar.length ≠ 1) :
    Util.split_file fil sepChar readSize
      = .error "Can only split file on single char" := by
  match sepChar, h with
  | [], _ => rfl
  | [a], h => exact absurd rfl h
  | a :: b :: t, _ => rfl

/-- Witness for C9 at concrete inputs: an empty and a two-byte delimiter both
raise. -/
theorem C9_split_file_rejects_non_single_byte_sep_witness :
    (([] : List Nat).length ≠ 1 ∧
      Util.split_file [1, 2] ([] : List Nat) 4
        = .error "Can only split file on single char") ∧
    (([0, 0] : List Nat).length ≠ 1 ∧
      Util.split_file [1, 2] [0, 0] 4
        = .error "Can only split file on single char") :=
  ⟨⟨by decide, C9_split_file_rejects_non_single_byte_sep [1, 2] [] 4 (by decide)⟩,
   ⟨by decide, C9_split_file_rejects_non_single_byte_sep [1, 2] [0, 0] 4 (by decide)⟩⟩

/-- C10: whenever the boring (exclude) regex list is non-empty, a file name
matching neither the interesting nor the boring expressions is interesting:
with both lists present the interesting list acts only as an override on
boring matches and no longer filters. -/
theorem C10_boring_present_nonmatching_name_is_interesting {α : Type _}
    (fname : α) (interesting_res boring_res : List (α → Bool))
    (hb : boring_res ≠ [])
    (hni : ∀ r ∈ interesting_res, r fname = false)
    (hnb : ∀ r ∈ boring_res, r fname = false) :
    Interesting.is_interesting_fname fname interesting_res boring_res = true := by
  rw [Interesting.is_interesting_fname]
  have hbe : boring_res.isEmpty = false := by
    cases boring_res with
    | nil => exact absurd rfl hb
    | cons r rs => rfl
  have hmb : boring_res.any (fun ni_re => ni_re fname) = false := by
    rw [List.any_eq_false]
    intro r hr
    simp [hnb r hr]
  simp [hbe, hmb]

namespace GitLog

theorem takeWhile_lt_decomp {author : List Nat}
    (h : ¬(author.takeWhile (fun b => !(b == 60))).length = author.length) :
    author = author.takeWhile (fun b => !(b == 60)) ++
      60 :: author.drop ((author.takeWhile (fun b => !(b == 60))).length + 1) := by
  set p : Nat → Bool := fun b => !(b == 60) with hp
  set t := author.takeWhile p with ht
  have hsplit : t ++ author.dropWhile p = author :=
    List.takeWhile_append_dropWhile p author
  have hdne : author.dropWhile p ≠ [] := by
    intro he
    rw [he, List.append_nil] at hsplit
    exact h (by rw [hsplit])
  cases hd : author.dropWhile p with
  | nil => exact absurd hd hdne
  | cons b tail =>
    have hb : p ((author.dropWhile p).head hdne) = false :=
      List.head_dropWhile_not p author hdne
    have hbval : b = 60 := by
      have hhead : (author.dropWhile p).head hdne = b := by
        simp [hd]
      rw [hhead, hp] at hb
      simpa using hb
    subst hbval
    have hauthor : author = t ++ 60 :: tail := by
      rw [← hsplit, hd]
    have htail : author.drop (t.length + 1) = tail := by
      rw [hauthor, show t ++ 60 :: tail = (t ++ [60]) ++ tail by simp,
        show t.length + 1 = (t ++ [60]).length by simp, List.drop_left]
    rw [htail]
    exact hauthor

/-- C2 (amended): for every single-line author string (one containing no
newline byte, as every author value handed to the parser is, having been
split out of a line), `parse_name_and_email` splits by the first-`<` rule:
the (non-empty) name is everything before the first `<` minus the
separating space, the email is everything between that first `<` and a
trailing `>`, and a mismatch gives null; in particular the claim's three
examples hold. -/
theorem C2_parse_name_and_email_first_angle_rule :
    (∀ author : List Nat, ¬10 ∈ author →
      parse_name_and_email author = nameEmailFirstAngleRule author) ∧
    parse_name_and_email (strBytes "Bob Jones <bob@example.com>")
      = some (strBytes "Bob Jones", strBytes "bob@example.com") ∧
    parse_name_and_email (strBytes "Bob > Greater Than <bob<>@example.com>")
      = some (strBytes "Bob > Greater Than", strBytes "bob<>@example.com") ∧
    parse_name_and_email (strBytes "bob@example.com") = none := by
  refine ⟨?_, rfl, rfl, rfl⟩
  intro author hnl
  simp only [parse_name_and_email, nameEmailFirstAngleRule]
  by_cases h1 : (author.takeWhile (fun b => !(b == 60))).length = author.length
  · rw [if_pos h1, if_pos h1]
  · rw [if_neg h1, if_neg h1]
    have htake : author.take ((author.takeWhile (fun b => !(b == 60))).length)
        = author.takeWhile (fun b => !(b == 60)) :=
      (List.prefix_iff_eq_take.mp (List.takeWhile_prefix _)).symm
    rw [htake]
    have hdecomp0 := takeWhile_lt_decomp h1
    set pre := author.takeWhile (fun b => !(b == 60)) with hpre
    set r := author.drop (pre.length + 1) with hr
    have hdecomp : author = pre ++ 60 :: r := hdecomp0
    have hnot10r : ∀ a ∈ r, a ≠ 10 := by
      intro a ha he
      exact hnl (he ▸ (List.drop_sublist _ _).mem ha)
    clear_value pre r
    have hcases : r = [] ∨ ∃ x xs, r = x :: xs := by
      cases r with
      | nil => exact Or.inl rfl
      | cons a t => exact Or.inr ⟨a, t, rfl⟩
    by_cases h2 : pre.getLast? = some 32 ∧ pre.dropLast ≠ []
    · rcases hcases with hrc | ⟨x, xs, hrc⟩
      · have hglast : author.getLast? = some 60 := by
          rw [hdecomp, hrc]
          exact List.getLast?_concat pre
        rw [if_pos h2,
          if_neg (show ¬(r.getLast? = some 62 ∧ ¬10 ∈ r.dropLast) by
            rw [hrc]; simp),
          if_neg (show ¬([62, 10].isSuffixOf r ∧ ¬10 ∈ r.dropLast.dropLast) by
            rw [hrc]; decide),
          if_neg (show ¬(pre.getLast? = some 32 ∧ pre.dropLast ≠ [] ∧
              author.getLast? = some 62) by
            intro hc
            have := hglast.symm.trans hc.2.2
            simp at this)]
      · have hcons : (60 :: r).getLast? = r.getLast? := by
          rw [hrc]
          exact List.getLast?_cons_cons
        have hglast : author.getLast? = r.getLast? := by
          rw [hdecomp, List.getLast?_append_of_ne_nil _ (List.cons_ne_nil 60 r),
            hcons]
        by_cases h3 : r.getLast? = some 62
        · rw [if_pos h2,
            if_pos (show r.getLast? = some 62 ∧ ¬10 ∈ r.dropLast from
              ⟨h3, fun hmem => hnot10r 10 (List.mem_of_mem_dropLast hmem) rfl⟩),
            if_pos (show pre.getLast? = some 32 ∧ pre.dropLast ≠ [] ∧
                author.getLast? = some 62 from ⟨h2.1, h2.2, hglast.trans h3⟩)]
        · rw [if_pos h2,
            if_neg (show ¬(r.getLast? = some 62 ∧ ¬10 ∈ r.dropLast) from
              fun hc => h3 hc.1),
            if_neg (show ¬([62, 10].isSuffixOf r ∧ ¬10 ∈ r.dropLast.dropLast) from
              fun hc => hnot10r 10
                ((List.isSuffixOf_iff_suffix.mp hc.1).mem (by simp)) rfl),
            if_neg (show ¬(pre.getLast? = some 32 ∧ pre.dropLast ≠ [] ∧
                author.getLast? = some 62) from
              fun hc => h3 (hglast.symm.trans hc.2.2))]
    · rw [if_neg h2,
        if_neg (show ¬(pre.getLast? = some 32 ∧ pre.dropLast ≠ [] ∧
            author.getLast? = some 62) from fun hc => h2 ⟨hc.1, hc.2.1⟩)]

theorem exists_nonspace_of_pyStrip_ne {l : List Nat} (h : pyStrip l ≠ []) :
    ∃ b ∈ l, isPySpace b = false := by
  by_contra hc
  push_neg at hc
  apply h
  rw [pyStrip]
  have hdw : l.dropWhile isPySpace = [] :=
    List.dropWhile_eq_nil_iff.mpr (fun x hx => by
      have := hc x hx
      simpa using this)
  rw [hdw]
  rfl

theorem parse_header_ok (header : List Nat) (hl : List (List Nat))
    (h32 : 32 ∈ header) : ∃ o, _parse_header header hl = .ok o := by
  rw [_parse_header]
  cases hfind : hl.find? (fun line => header.isPrefixOf line) with
  | none => exact ⟨none, rfl⟩
  | some line =>
    dsimp only
    have hpre : header.isPrefixOf line = true := by
      have := List.find?_some hfind
      simpa using this
    have hprefix : header <+: line := List.isPrefixOf_iff_prefix.mp hpre
    have h32l : (32 : Nat) ∈ line := hprefix.sublist.subset h32
    have hlen : (line.takeWhile (fun b => !(b == 32))).length ≠ line.length := by
      intro he
      have hself : line.takeWhile (fun b => !(b == 32)) = line :=
        List.IsPrefix.eq_of_length (List.takeWhile_prefix _) he
      have h32tw : (32 : Nat) ∈ line.takeWhile (fun b => !(b == 32)) := by
        rw [hself]
        exact h32l
      have hp := List.mem_takeWhile_imp h32tw
      simp at hp
    rw [splitFirstSpace, if_neg hlen]
    exact ⟨some (line.drop ((line.takeWhile (fun b => !(b == 32))).length + 1)), rfl⟩

theorem split_entry_header_none {u : List Nat}
    (h : (entryLines u).length < 2 ∨
      ¬(strBytes "commit").isPrefixOf ((entryLines u).headD []) ∨
      ¬(strBytes "Author").isPrefixOf ((entryLines u).getD 1 [])) :
    _split_entry_header u = none := by
  rw [_split_entry_header]
  by_cases h1 : (entryLines u).length < 2
  · rw [if_pos h1]
  · rw [if_neg h1]
    rcases h with h | h | h
    · exact absurd h h1
    · rw [if_pos h]
    · by_cases h2 : ¬(strBytes "commit").isPrefixOf ((entryLines u).headD [])
      · rw [if_pos h2]
      · rw [if_neg h2, if_pos h]

/-- C5: a raw entry that is missing a commit line (fewer than two lines or a
first line not starting with `commit`), missing an `Author` second line,
whose author value is absent, empty, or unparsable by the name/email rule,
or whose diff section is empty or whitespace-only, makes `_parse_log_entry`
return `None` — not a `LogEntry` and not an error. -/
theorem C5_parser_null_on_malformed (raw : List Nat)
    (h : (entryLines (Util.utf8 raw)).length < 2 ∨
      ¬(strBytes "commit").isPrefixOf ((entryLines (Util.utf8 raw)).headD []) ∨
      ¬(strBytes "Author").isPrefixOf ((entryLines (Util.utf8 raw)).getD 1 []) ∨
      (∀ hl dl, _split_entry_header (Util.utf8 raw) = some (hl, dl) →
        (_parse_header (strBytes "Author: ") hl = .ok none ∨
          _parse_header (strBytes "Author: ") hl = .ok (some []) ∨
          ∃ a, _parse_header (strBytes "Author: ") hl = .ok (some a) ∧
            parse_name_and_email a = none)) ∨
      (∀ hl dl, _split_entry_header (Util.utf8 raw) = some (hl, dl) →
        pyStrip (List.intercalate [10] dl) = [])) :
    _parse_log_entry raw = .ok none := by
  rw [_parse_log_entry]
  cases hsplit : _split_entry_header (Util.utf8 raw) with
  | none => rfl
  | some pr =>
    obtain ⟨hl, dl⟩ := pr
    try dsimp only
    rcases h with h1 | h2 | h3 | h4 | h5
    · exact absurd hsplit (by rw [split_entry_header_none (Or.inl h1)]; simp)
    · exact absurd hsplit (by rw [split_entry_header_none (Or.inr (Or.inl h2))]; simp)
    · exact absurd hsplit (by rw [split_entry_header_none (Or.inr (Or.inr h3))]; simp)
    · by_cases hdiff : pyStrip (List.intercalate [10] dl) = []
      · rw [if_pos hdiff]
      · rw [if_neg hdiff]
        rcases h4 hl dl hsplit with ha | ha | ⟨a, ha, hpn⟩
        · rw [ha]
        · rw [ha]
          rfl
        · rw [ha]
          dsimp only
          by_cases hae : a = []
          · rw [if_pos hae]
          · rw [if_neg hae, hpn]
    · rw [if_pos (h5 hl dl hsplit)]

/-- Witness for C5 at a concrete input: the one-line entry `"x"` has no
commit line and parses to `None`. -/
theorem C5_parser_null_on_malformed_witness :
    (entryLines (Util.utf8 (strBytes "x"))).length < 2 ∧
    _parse_log_entry (strBytes "x") = .ok none :=
  ⟨by decide, C5_parser_null_on_malformed (strBytes "x") (Or.inl (by decide))⟩

/-- C6: whenever the parser succeeds, the returned `LogEntry`'s `raw_log`
field is byte-for-byte the input entry. -/
theorem C6_raw_log_roundtrip (raw : List Nat) (le : LogEntry)
    (h : _parse_log_entry raw = .ok (some le)) : le.raw_log = raw := by
  rw [_parse_log_entry] at h
  repeat'
    first
    | split at h
    | (dsimp only at h)
  all_goals first
  | (simp only [Except.ok.injEq, Option.some.injEq] at h
     rw [← h]
     try rfl)
  | simp at h

/-- Witness for C6 at a concrete well-formed entry. -/
theorem C6_raw_log_roundtrip_witness : sampleLogEntry.raw_log = sampleRaw :=
  C6_raw_log_roundtrip sampleRaw sampleLogEntry rfl

/-- C7: every `LogEntry` the parser constructs has a diff containing a
non-whitespace character, a non-empty commit, and an author name/email pair
obtained from a successful `parse_name_and_email`; entries failing these
conditions are dropped as `None` at parse time (C5/C8), never surfaced as
errors. -/
theorem C7_logentry_invariant (raw : List Nat) (le : LogEntry)
    (h : _parse_log_entry raw = .ok (some le)) :
    (∃ c ∈ le.diff, isPySpace c = false) ∧ le.commit ≠ [] ∧
    (∃ a nm em, parse_name_and_email a = some (nm, em) ∧
      le.author_name = Util.uc nm ∧ le.author_email = Util.uc em) := by
  rw [_parse_log_entry] at h
  cases hsplit : _split_entry_header (Util.utf8 raw) with
  | none => rw [hsplit] at h; simp at h
  | some pr =>
    obtain ⟨hl, dl⟩ := pr
    rw [hsplit] at h
    try dsimp only at h
    by_cases hdiff : pyStrip (List.intercalate [10] dl) = []
    · rw [if_pos hdiff] at h
      simp at h
    · rw [if_neg hdiff] at h
      cases hauth : _parse_header (strBytes "Author: ") hl with
      | error e => rw [hauth] at h; simp at h
      | ok o =>
        rw [hauth] at h
        try dsimp only at h
        cases o with
        | none => simp at h
        | some author =>
          try dsimp only at h
          by_cases hae : author = []
          · rw [if_pos hae] at h
            simp at h
          · rw [if_neg hae] at h
            cases hpar : parse_name_and_email author with
            | none => rw [hpar] at h; simp at h
            | some pr2 =>
              obtain ⟨an, ae2⟩ := pr2
              rw [hpar] at h
              try dsimp only at h
              cases hcmt : _parse_header (strBytes "commit ") hl with
              | error e => rw [hcmt] at h; simp at h
              | ok o2 =>
                rw [hcmt] at h
                try dsimp only at h
                cases o2 with
                | none => simp at h
                | some commit =>
                  try dsimp only at h
                  by_cases hce : commit = []
                  · rw [if_pos hce] at h
                    simp at h
                  · rw [if_neg hce] at h
                    simp only [Except.ok.injEq, Option.some.injEq] at h
                    subst h
                    refine ⟨?_, Util.uc_ne_nil hce, author, an, ae2, hpar, rfl, rfl⟩
                    exact Util.uc_exists_nonspace _ (exists_nonspace_of_pyStrip_ne hdiff)

/-- Witness for C7 at a concrete well-formed entry. -/
theorem C7_logentry_invariant_witness :
    (∃ c ∈ sampleLogEntry.diff, isPySpace c = false) ∧
    sampleLogEntry.commit ≠ [] ∧
    (∃ a nm em, parse_name_and_email a = some (nm, em) ∧
      sampleLogEntry.author_name = Util.uc nm ∧
      sampleLogEntry.author_email = Util.uc em) :=
  C7_logentry_invariant sampleRaw sampleLogEntry rfl

/-- C8: the parser is total — for every input byte string it returns `ok`
(a `LogEntry` or `None`), never a Python-level error — and the decode `uc`
of raw bytes to canonical text only ever emits Unicode scalar values
(well-formed decodes or the `U+FFFD` placeholder for undecodable bytes),
never raising. -/
theorem C8_parser_total_and_decode_safe (raw : List Nat) :
    (∃ r, _parse_log_entry raw = .ok r) ∧
    (Util.uc raw).all Util.isScalarValue = true := by
  refine ⟨?_, Util.uc_scalar raw⟩
  rw [_parse_log_entry]
  cases hsplit : _split_entry_header (Util.utf8 raw) with
  | none => exact ⟨none, rfl⟩
  | some pr =>
    obtain ⟨hl, dl⟩ := pr
    try dsimp only
    by_cases hdiff : pyStrip (List.intercalate [10] dl) = []
    · rw [if_pos hdiff]
      exact ⟨none, rfl⟩
    · rw [if_neg hdiff]
      obtain ⟨o, ho⟩ := parse_header_ok (strBytes "Author: ") hl (by decide)
      rw [ho]
      try dsimp only
      cases o with
      | none => exact ⟨none, rfl⟩
      | some author =>
        try dsimp only
        by_cases hae : author = []
        · rw [if_pos hae]
          exact ⟨none, rfl⟩
        · rw [if_neg hae]
          cases hpar : parse_name_and_email author with
          | none => exact ⟨none, rfl⟩
          | some pr2 =>
            obtain ⟨an, ae2⟩ := pr2
            obtain ⟨o2, ho2⟩ := parse_header_ok (strBytes "commit ") hl (by decide)
            rw [ho2]
            try dsimp only
            cases o2 with
            | none => exact ⟨none, rfl⟩
            | some commit =>
              try dsimp only
              by_cases hce : commit = []
              · rw [if_pos hce]
                exact ⟨none, rfl⟩
              · rw [if_neg hce]
                exact ⟨_, rfl⟩

/-- C2 counterexample: on the author string `"A <b> <c>"` the parser splits
at the first `<` and returns `("A", "b> <c")`, while the specification's
last-`<` rule yields `("A <b>", "c")`; the two functions disagree, so the
claimed rule does not describe `parse_name_and_email`. -/
theorem C2_counterexample_last_angle_rule :
    parse_name_and_email (strBytes "A <b> <c>")
        = some (strBytes "A", strBytes "b> <c") ∧
    nameEmailLastAngleRule (strBytes "A <b> <c>")
        = some (strBytes "A <b>", strBytes "c") ∧
    parse_name_and_email (strBytes "A <b> <c>")
        ≠ nameEmailLastAngleRule (strBytes "A <b> <c>") := by
  refine ⟨rfl, rfl, ?_⟩
  decide

/-- Witness for C2's amended theorem at a concrete input: the author string
`"Bob <bob@example.com>"` contains no newline and both rules yield
`("Bob", "bob@example.com")`. -/
theorem C2_parse_name_and_email_first_angle_rule_witness :
    ¬(10 : Nat) ∈ strBytes "Bob <bob@example.com>" ∧
    parse_name_and_email (strBytes "Bob <bob@example.com>")
      = nameEmailFirstAngleRule (strBytes "Bob <bob@example.com>") ∧
    nameEmailFirstAngleRule (strBytes "Bob <bob@example.com>")
      = some (strBytes "Bob", strBytes "bob@example.com") :=
  ⟨by decide,
   C2_parse_name_and_email_first_angle_rule.1 (strBytes "Bob <bob@example.com>")
     (by decide),
   by decide⟩

end GitLog

namespace Excavator

theorem waitFor_found :
    ∀ (arrivals completed : List Nat) (i : Nat), i ∈ completed ++ arrivals →
      ∃ c2 a2, waitFor i completed arrivals = some (c2, a2) ∧
        ∀ x, x ∈ c2 ++ a2 ↔ x ∈ completed ++ arrivals := by
  intro arrivals
  induction arrivals with
  | nil =>
    intro completed i hi
    rw [List.append_nil] at hi
    exact ⟨completed, [], by rw [waitFor, if_pos hi], fun x => Iff.rfl⟩
  | cons a rest ih =>
    intro completed i hi
    by_cases hic : i ∈ completed
    · exact ⟨completed, a :: rest, by rw [waitFor, if_pos hic], fun x => Iff.rfl⟩
    · have hi2 : i ∈ (a :: completed) ++ rest := by
        rcases List.mem_append.mp hi with h1 | h2
        · exact absurd h1 hic
        · rcases List.mem_cons.mp h2 with rfl | h3
          · exact List.mem_append.mpr (Or.inl (List.mem_cons_self _ _))
          · exact List.mem_append.mpr (Or.inr h3)
      obtain ⟨c2, a2, heq, hiff⟩ := ih (a :: completed) i hi2
      refine ⟨c2, a2, by rw [waitFor, if_neg hic]; exact heq, fun x => ?_⟩
      rw [hiff x]
      simp only [List.mem_append, List.mem_cons]
      tauto

theorem getLoopFacts_eq {F : Type} :
    ∀ (is : List Nat) (jobs : List (List F)) (completed arrivals : List Nat),
      (∀ i ∈ is, i ∈ completed ++ arrivals) →
      getLoopFacts jobs is completed arrivals
        = some ((is.map (fun i => jobs.getD i [])).flatten) := by
  intro is
  induction is with
  | nil => intro jobs completed arrivals _; rfl
  | cons i is ih =>
    intro jobs completed arrivals h
    obtain ⟨c2, a2, heq, hiff⟩ :=
      waitFor_found arrivals completed i (h i (List.mem_cons_self i is))
    rw [getLoopFacts, heq]
    dsimp only
    have hrec := ih jobs c2 a2
      (fun j hj => (hiff j).mpr (h j (List.mem_cons_of_mem i hj)))
    rw [hrec]
    simp [List.flatten_cons]

theorem map_getD_range {F : Type} :
    ∀ (jobs : List (List F)),
      (List.range jobs.length).map (fun i => jobs.getD i []) = jobs := by
  intro jobs
  induction jobs with
  | nil => rfl
  | cons x xs ih =>
    rw [List.length_cons, List.range_succ_eq_map, List.map_cons, List.map_map]
    refine congrArg₂ List.cons rfl ?_
    rw [List.map_congr_left (fun i _ => by
      show (x :: xs).getD (i + 1) [] = xs.getD i []
      simp [List.getD_cons_succ])]
    exact ih

theorem mapM_error_of_firstUnresolvable {E F : Type}
    (registry : List (String × (String → E → F)))
    (er : List String → String → E → F) (n : String) :
    ∀ ffs : List FinderDesc, firstUnresolvable registry er ffs = some n →
      ffs.mapM (_funcify_fact_finder registry er) = .error n := by
  intro ffs
  induction ffs with
  | nil =>
    intro h
    exact absurd h (by rw [firstUnresolvable]; simp)
  | cons d ds ih =>
    intro h
    rw [firstUnresolvable] at h
    cases hf : _funcify_fact_finder registry er d with
    | ok f =>
      rw [hf] at h
      try dsimp only at h
      rw [List.mapM_cons, hf, ih h]
      rfl
    | error m =>
      rw [hf] at h
      try dsimp only at h
      injection h with h2
      subst h2
      rw [List.mapM_cons, hf]
      rfl

theorem find_facts_error {E F : Type}
    (registry : List (String × (String → E → F)))
    (er : List String → String → E → F) (fname : String) (entries : List E)
    (ffs : List FinderDesc) (n : String)
    (h : firstUnresolvable registry er ffs = some n) :
    _find_facts registry er fname entries ffs = .error n := by
  rw [_find_facts, mapM_error_of_firstUnresolvable registry er n ffs h]
  rfl

end Excavator

/-- C3 (amended): an unresolvable fact-finder descriptor is not detected
before parallel work is submitted.  Every per-file fact-finding job is
submitted first — the run's event trace begins with one submission event
per interesting file — and resolution happens only inside the worker job
(`_find_facts` resolves the descriptors via `_funcify_fact_finder`), so the
run aborts with the configuration error only when the first failed job's
result is collected.  With no interesting files, an unresolvable descriptor
is never detected at all. -/
theorem C3_resolution_fails_inside_worker_after_submission
    {E F : Type} (registry : List (String × (String → E → F)))
    (er : List String → String → E → F) (files : List (String × List E))
    (ffs : List Excavator.FinderDesc) (n : String)
    (hbad : Excavator.firstUnresolvable registry er ffs = some n)
    (hfiles : files ≠ []) :
    (Excavator.excavate registry er files ffs).1.take files.length
        = files.map (fun f => Excavator.Ev.submitFindFacts f.1) ∧
    (Excavator.excavate registry er files ffs).2 = .error n ∧
    (Excavator.excavate ([] : List (String × (String → E → F))) er [] ffs).2
        = .ok () := by
  refine ⟨?_, ?_, rfl⟩
  · rw [Excavator.excavate]
    dsimp only
    rw [show files.length
        = (files.map (fun f => Excavator.Ev.submitFindFacts f.1)).length
      from (List.length_map _ _).symm, List.take_left]
  · obtain ⟨f0, rest, rfl⟩ : ∃ f0 rest, files = f0 :: rest := by
      cases files with
      | nil => exact absurd rfl hfiles
      | cons f0 rest => exact ⟨f0, rest, rfl⟩
    rw [Excavator.excavate]
    dsimp only
    rw [List.map_cons, Excavator.find_facts_error registry er f0.1 f0.2 ffs n hbad,
      Excavator.collectJobs]

/-- Witness for C3's amended theorem at a concrete run: one file, an empty
registry and a single unresolvable in-process finder. -/
theorem C3_resolution_fails_inside_worker_after_submission_witness :
    Excavator.firstUnresolvable ([] : List (String × (String → Nat → Nat)))
        (fun _ _ _ => 0) [.inProcess "no.such.func"] = some "no.such.func" ∧
    ([(("a.py" : String), ([] : List Nat))] ≠ []) ∧
    (Excavator.excavate ([] : List (String × (String → Nat → Nat)))
        (fun _ _ _ => 0) [("a.py", ([] : List Nat))]
        [.inProcess "no.such.func"]).2 = .error "no.such.func" :=
  ⟨rfl, by simp,
    (C3_resolution_fails_inside_worker_after_submission
      ([] : List (String × (String → Nat → Nat))) (fun _ _ _ => 0)
      [("a.py", ([] : List Nat))] [.inProcess "no.such.func"] "no.such.func"
      rfl (by simp)).2.1⟩

/-- C3 counterexample: in the concrete run with one interesting file and one
unresolvable finder name, the event trace is submission first, resolution
failure second, run abortion third — the submission of a fact-finding job
to the pool strictly precedes the resolution failure, contradicting the
claim that the failure is raised before any job is submitted. -/
theorem C3_counterexample_submission_precedes_resolution_failure :
    (Excavator.excavate ([] : List (String × (String → Nat → Nat)))
        (fun _ _ _ => 0) [("a.py", ([] : List Nat))]
        [.inProcess "no.such.func"]).1
      = [.submitFindFacts "a.py", .resolveFail "no.such.func",
         .runFailed "no.such.func"] ∧
    (Excavator.excavate ([] : List (String × (String → Nat → Nat)))
        (fun _ _ _ => 0) [("a.py", ([] : List Nat))]
        [.inProcess "no.such.func"]).1.get? 0
      = some (.submitFindFacts "a.py") ∧
    (Excavator.excavate ([] : List (String × (String → Nat → Nat)))
        (fun _ _ _ => 0) [("a.py", ([] : List Nat))]
        [.inProcess "no.such.func"]).1.get? 1
      = some (.resolveFail "no.such.func") :=
  ⟨rfl, rfl, rfl⟩

/-- C4 (amended): facts are delivered to the summarizer in the submission
(file-declaration) order of the phase-2 jobs — the collection loop iterates
the async results in the order they were submitted — regardless of the
order in which the workers complete the jobs; within one job the job's own
fact order is preserved. -/
theorem C4_delivery_in_submission_order {F : Type} (jobs : List (List F))
    (completionOrder : List Nat) (h : ∀ i < jobs.length, i ∈ completionOrder) :
    Excavator.factDelivery jobs completionOrder = some jobs.flatten := by
  rw [Excavator.factDelivery, Excavator.getLoopFacts_eq _ jobs [] completionOrder
    (fun i hi => by
      rw [List.nil_append]
      exact h i (List.mem_range.mp hi)),
    Excavator.map_getD_range]

/-- Witness for C4's amended theorem at a concrete run: two jobs whose
workers complete in reverse order still deliver their facts in submission
order. -/
theorem C4_delivery_in_submission_order_witness :
    (∀ i < ([[10], [20]] : List (List Nat)).length, i ∈ ([1, 0] : List Nat)) ∧
    Excavator.factDelivery ([[10], [20]] : List (List Nat)) [1, 0]
      = some [10, 20] :=
  ⟨by decide,
    (C4_delivery_in_submission_order ([[10], [20]] : List (List Nat)) [1, 0]
      (by decide)).trans rfl⟩

/-- C4 counterexample: with two phase-2 jobs completing in the order
`[1, 0]` (a permutation of the job indices), the code delivers
`[10, 20]` — submission order — while the claimed completion-order delivery
would be `[20, 10]`; the two disagree. -/
theorem C4_counterexample_completion_order :
    (([1, 0] : List Nat).Perm (List.range 2)) ∧
    Excavator.factDelivery ([[10], [20]] : List (List Nat)) [1, 0]
      = some [10, 20] ∧
    Excavator.completionOrderDelivery ([[10], [20]] : List (List Nat)) [1, 0]
      = [20, 10] ∧
    Excavator.factDelivery ([[10], [20]] : List (List Nat)) [1, 0]
      ≠ some (Excavator.completionOrderDelivery
          ([[10], [20]] : List (List Nat)) [1, 0]) :=
  ⟨by decide, rfl, rfl, by decide⟩

/-- Witness for C10 at a concrete input: one boring and one interesting
expression, neither matching the name. -/
theorem C10_boring_present_nonmatching_name_is_interesting_witness :
    Interesting.is_interesting_fname 7 [fun n => decide (n = 1)]
      [fun n => decide (n = 2)] = true :=
  C10_boring_present_nonmatching_name_is_interesting 7 _ _
    (List.cons_ne_nil _ _)
    (fun r hr => by
      rcases List.mem_singleton.mp hr with rfl
      decide)
    (fun r hr => by
      rcases List.mem_singleton.mp hr with rfl
      decide)

end Archaeologit
